import Mathlib

/-!
Shallow embedding of `package/kedro_viz/integrations/kedro/sqlite_store.py`
(class `SQLiteStore`): the run-record store, the download / merge / upload
phases, `sync`, `save`, and the `_to_json` serializer.

Modelling conventions:
* The `runs` table of a sqlite database file is a list of `Record`s
  (`id`, `blob`), in insertion order.
* A file on disk is a `DBFile`: either a well-formed sqlite database
  (a named collection of tables) or a corrupt file, on which any attempt
  to reflect/read raises.
* The working directory and the remote bucket are association lists from
  file name to `DBFile` (`FS`); `fsGet` returns the first binding.
* Exceptions are explicit: functions that can let an exception escape
  return an `Option`/error component instead of raising.
-/

structure Record where
  id : String
  blob : String
deriving DecidableEq

/-- The list of identifiers of a runs table, in order. -/
def runIds (tbl : List Record) : List String :=
  tbl.map Record.id

/-- Modelled from the spec: `RunModel` (declared in
`kedro_viz.models.experiment_tracking`, which is not part of the sources
here) declares `id` as the primary key of the `runs` table, so
`database.add` + `database.commit` fails exactly when a row with the same
`id` already exists (spec section 4.1: insert "Fails with `DuplicateKey` if
`id` already exists"). On success the row is appended. -/
def insertRun (tbl : List Record) (r : Record) : Option (List Record) :=
  if r.id ∈ runIds tbl then none else some (tbl ++ [r])

/-- One `try: add/commit except: rollback` step of `SQLiteStore._merge`
(sqlite_store.py lines 171-178): a failed insert leaves the table exactly
as it was. -/
def mergeRecord (tbl : List Record) (r : Record) : List Record :=
  match insertRun tbl r with
  | some t => t
  | none => tbl

/-- The per-file insert loop of `SQLiteStore._merge`: every row of
`all_runs_data` is attempted in order. -/
def mergeRuns (tbl : List Record) (rs : List Record) : List Record :=
  rs.foldl mergeRecord tbl

/-- `db_metadata.tables` filtered to the table named "runs"
(sqlite_store.py lines 166-170): collect the rows of every table whose
name is exactly "runs". -/
def runsOf (tables : List (String × List Record)) : List Record :=
  tables.foldl (fun acc t => if t.1 = "runs" then acc ++ t.2 else acc) []

inductive DBFile where
  | db (tables : List (String × List Record))
  | corrupt
deriving DecidableEq

/-- The rows of the runs table of a database file; a corrupt file has no
readable rows (reading it raises instead). -/
def fileRuns : DBFile → List Record
  | DBFile.db ts => runsOf ts
  | DBFile.corrupt => []

abbrev FS := List (String × DBFile)

def fsGet : FS → String → Option DBFile
  | [], _ => none
  | e :: fs, n => if e.1 = n then some e.2 else fsGet fs n

def fsRemove : FS → String → FS
  | [], _ => []
  | e :: fs, n => if e.1 = n then fsRemove fs n else e :: fsRemove fs n

/-- Writing a file: replaces any existing binding for that name. -/
def fsPut (fs : FS) (n : String) (f : DBFile) : FS :=
  (n, f) :: fsRemove fs n

/-- `SQLiteStore.location`: the local store lives at
`<working directory>/session_store.db`; we keep only the base name. -/
def storeName : String := "session_store.db"

/-- The runs currently visible in the local store file (empty if the file
is absent or corrupt). -/
def storeRuns (fs : FS) : List Record :=
  match fsGet fs storeName with
  | some (DBFile.db ts) => runsOf ts
  | _ => []

/-- `fsspec`'s `glob(f"{remote_location}/*.db")`: a remote object matches
exactly when its base name ends in ".db". -/
def matchesDbGlob (n : String) : Bool :=
  n.data.reverse.take 3 == ['b', 'd', '.']

/-- `_get_dbname` (sqlite_store.py lines 33-35): the environment override
`KEDRO_SQLITE_STORE_USERNAME` if set and non-empty (Python's `or` treats
the empty string as falsy), else `getpass.getuser()`, plus ".db". -/
def getDbname (envUsername : Option String) (osUser : String) : String :=
  (match envUsername with
   | some u => if u = "" then osUser else u
   | none => osUser) ++ ".db"

structure RemoteObject where
  name : String
  content : DBFile
  fetchOk : Bool
deriving DecidableEq

/-- The `for database in databases:` fetch loop of `SQLiteStore._download`
(sqlite_store.py lines 125-129). The loop body runs inside the single
`try` of `_download`, so the first failing `get` raises out of the loop
into the `except` clause: the files fetched so far are kept and returned,
and no later object is fetched. -/
def downloadLoop (fs : FS) : List RemoteObject → FS × List String
  | [] => (fs, [])
  | r :: rest =>
    if r.fetchOk then
      let res := downloadLoop (fsPut fs r.name r.content) rest
      (res.1, r.name :: res.2)
    else (fs, [])

/-- `SQLiteStore._download` (sqlite_store.py lines 109-133): glob the
remote location for `*.db`, fetch each match to the working directory
under its base name, and return the list of local paths fetched. A
failure of the listing itself yields the empty list; any error is caught
by the surrounding `except` and logged, never raised. -/
def download (fs : FS) (listOk : Bool) (remotes : List RemoteObject) :
    FS × List String :=
  if listOk then downloadLoop fs (remotes.filter (fun r => matchesDbGlob r.name))
  else (fs, [])

/-- The state of one `_merge` call: the working directory, the runs table
as seen by the local SQLAlchemy session, and whether the directory entry
`session_store.db` still refers to the inode that session has open
(`os.remove` on the open store file unlinks the entry; later commits then
go to the unlinked inode and are invisible in the directory). -/
structure MergeState where
  fs : FS
  tbl : List Record
  visible : Bool
deriving DecidableEq

/-- A `database.commit()` of the local session: rewrites the store file
when its directory entry is still the session's inode. -/
def commitFs (st : MergeState) : MergeState :=
  if st.visible then
    { st with fs := fsPut st.fs storeName (DBFile.db [("runs", st.tbl)]) }
  else st

/-- One iteration of the insert loop of `_merge` (lines 171-178):
`database.add` + `database.commit`, with the `except` clause rolling the
failed attempt back (state unchanged) and logging. -/
def mergeInsert (st : MergeState) (r : Record) : MergeState :=
  match insertRun st.tbl r with
  | some t => commitFs { st with tbl := t }
  | none => st

/-- Processing one downloaded file in `_merge` (lines 156-181): open it,
reflect its tables, read the rows of the `runs` table, attempt each
insert, then `os.remove` the file. Reflecting a corrupt file raises
(`none`); a missing path makes sqlite create an empty database, which has
no tables and is then removed again — a net no-op. -/
def mergeFile (st : MergeState) (n : String) : Option MergeState :=
  match fsGet st.fs n with
  | some (DBFile.db ts) =>
    let st2 := (runsOf ts).foldl mergeInsert st
    some { st2 with
            fs := fsRemove st2.fs n,
            visible := if n = storeName then false else st2.visible }
  | some DBFile.corrupt => none
  | none => some st

inductive RaiseCause where
  | storeOpen
  | peerRead
deriving DecidableEq

/-- The `for db_loc in databases_location:` loop of `_merge`. There is no
`try` around the per-file body, so a raise while reading a file escapes
with the state reached so far. -/
def mergeLoop : MergeState → List String → MergeState × Option RaiseCause
  | st, [] => (st, none)
  | st, n :: rest =>
    match mergeFile st n with
    | some st2 => mergeLoop st2 rest
    | none => (st, some RaiseCause.peerRead)

/-- Modelled from the spec: `create_db_engine` (in `kedro_viz.database`,
not part of the sources here) followed by `Base.metadata.create_all`
opens or creates the local store and ensures the runs schema exists
(spec section 4.1: `open` "opens or creates the file-backed store …;
fails with `StorageFault` if … the file is corrupt/not a valid store").
Returns the (possibly extended) directory and the current runs table. -/
def openStore (fs : FS) : Option (FS × List Record) :=
  match fsGet fs storeName with
  | some (DBFile.db ts) => some (fs, runsOf ts)
  | some DBFile.corrupt => none
  | none => some (fsPut fs storeName (DBFile.db [("runs", [])]), [])

/-- `SQLiteStore._merge` (sqlite_store.py lines 135-181). -/
def merge (fs : FS) (dbs : List String) : MergeState × Option RaiseCause :=
  match openStore fs with
  | some (fs2, tbl) => mergeLoop { fs := fs2, tbl := tbl, visible := true } dbs
  | none => ({ fs := fs, tbl := [], visible := true }, some RaiseCause.storeOpen)

/-- `SQLiteStore._upload` (sqlite_store.py lines 99-107): put the local
store file to `<remote_location>/<identity>.db`. Everything runs inside
`try`: a network failure, or the local store file being absent, is caught
and logged and leaves the remote unchanged. -/
def upload (fs : FS) (remote : FS) (envUsername : Option String)
    (osUser : String) (putOk : Bool) : FS :=
  match fsGet fs storeName, putOk with
  | some f, true => fsPut remote (getDbname envUsername osUser) f
  | _, _ => remote

/-- The remote bucket contents corresponding to a listing. -/
def remoteMap (remotes : List RemoteObject) : FS :=
  remotes.map (fun r => (r.name, r.content))

structure SyncResult where
  fs : FS
  remote : FS
  raised : Option RaiseCause
deriving DecidableEq

/-- `SQLiteStore.sync` (sqlite_store.py lines 183-196): when a remote
location is configured, run `_download`, `_merge` on its result, then
`_upload`; otherwise do nothing. `sync` has no `try` of its own, so a
raise inside `_merge` escapes (`raised`), skipping `_upload`. -/
def sync (remoteConfigured : Bool) (fs : FS) (remotes : List RemoteObject)
    (envUsername : Option String) (osUser : String) (listOk putOk : Bool) :
    SyncResult :=
  if remoteConfigured then
    let d := download fs listOk remotes
    let m := merge d.1 d.2
    match m.2 with
    | some c => { fs := m.1.fs, remote := remoteMap remotes, raised := some c }
    | none =>
      { fs := m.1.fs,
        remote := upload m.1.fs (remoteMap remotes) envUsername osUser putOk,
        raised := none }
  else { fs := fs, remote := remoteMap remotes, raised := none }

/-- `SQLiteStore.save` (sqlite_store.py lines 87-97): open/create the
local store, insert the session's run record (no `try`: a duplicate
session id raises, modelled as `none`), commit, and then — only if a
remote location is configured — call `_upload`. `save` never calls
`_download` or `_merge`. -/
def save (remoteConfigured : Bool) (fs : FS) (remote : FS)
    (sessionId blob : String) (envUsername : Option String) (osUser : String)
    (putOk : Bool) : Option (FS × FS) :=
  match openStore fs with
  | none => none
  | some (fs2, tbl) =>
    match insertRun tbl (Record.mk sessionId blob) with
    | none => none
    | some t =>
      let fs3 := fsPut fs2 storeName (DBFile.db [("runs", t)])
      some (fs3,
        if remoteConfigured then upload fs3 remote envUsername osUser putOk
        else remote)

inductive SessValue where
  | str (s : String)
  | dict (entries : List (String × String))
  | nonser (rep : String)
deriving DecidableEq

/-- `_is_json_serializable` (sqlite_store.py lines 38-43): `json.dumps`
succeeds on everything except the values modelled as `nonser`. -/
def isJsonSerializable : SessValue → Bool
  | SessValue.nonser _ => false
  | _ => true

/-- The `else session_dict[key] = str(value)` branch of `_to_json`:
non-serializable values are replaced by their string representation. -/
def coerceValue : SessValue → SessValue
  | SessValue.nonser r => SessValue.str r
  | v => v

/-- The possible outcomes of the `import git` /
`git.Repo(search_parent_directories=True).active_branch` step inside
`_to_json` for the "git" key. -/
inductive GitOutcome where
  | importError
  | repoError
  | ok (branch : String)
deriving DecidableEq

/-- The `if key == "git":` block of `_to_json` (sqlite_store.py lines
72-79): the surrounding `try` catches `ImportError` only (logging it and
leaving the value unmodified). Any other failure to obtain the branch —
e.g. `git.InvalidGitRepositoryError` when the project is not a git
repository, or a `TypeError` from `value["branch"] = …` when the "git"
value is not a mapping — is not caught and raises (`none`). On success
the value's "branch" entry is set. -/
def enrichGit (v : SessValue) : GitOutcome → Option SessValue
  | GitOutcome.importError => some v
  | GitOutcome.repoError => none
  | GitOutcome.ok b =>
    match v with
    | SessValue.dict es =>
      some (SessValue.dict ((es.filter (fun e => !(e.1 == "branch"))) ++ [("branch", b)]))
    | _ => none

/-- `SQLiteStore._to_json` (sqlite_store.py lines 68-85): walk the session
data in order; enrich the value under "git" (possibly raising, see
`enrichGit`), then store each value, stringified when not JSON
serializable. `none` models an exception escaping `_to_json`. -/
def toJson (g : GitOutcome) :
    List (String × SessValue) → Option (List (String × SessValue))
  | [] => some []
  | (k, v) :: rest =>
    match (if k = "git" then enrichGit v g else some v) with
    | none => none
    | some v2 =>
      match toJson g rest with
      | none => none
      | some out => some ((k, coerceValue v2) :: out)

/-! ### Derived measures and predicates used by the statements -/

/-- The entry of a directory is a well-formed database file. -/
def validDb : Option DBFile → Bool
  | some (DBFile.db _) => true
  | _ => false

/-- The entry of a directory is a well-formed database file or absent
(never corrupt). -/
def validOrMissing : Option DBFile → Bool
  | some DBFile.corrupt => false
  | _ => true

/-- Every file of a directory is a well-formed database file. -/
def fsNoCorrupt (fs : FS) : Bool :=
  fs.all (fun e => validDb (some e.2))

/-- The rows readable from the file at `n` (empty when absent or corrupt). -/
def entryRuns (fs : FS) (n : String) : List Record :=
  match fsGet fs n with
  | some f => fileRuns f
  | none => []

/-- The concatenation, in processing order, of the runs of the files named
by `names` as they stand in `fs`. -/
def flatRunsOf (fs : FS) (names : List String) : List Record :=
  (names.map (entryRuns fs)).flatten

/-- The concatenation, in listing order, of the runs stored in the listed
remote objects. -/
def remotesRuns (remotes : List RemoteObject) : List Record :=
  (remotes.map (fun r => fileRuns r.content)).flatten

/-- The union of the record-identifier sets of the listed remote objects. -/
def peersIdSet (remotes : List RemoteObject) : Finset String :=
  remotes.foldl (fun a r => a ∪ (runIds (fileRuns r.content)).toFinset) ∅

/-- Invariant of a merge in progress: while the store's directory entry is
still the local session's inode, that entry is a well-formed database. -/
def storeVis (st : MergeState) : Prop :=
  st.visible = true → validDb (fsGet st.fs storeName) = true

/-- Invariant of a merge in progress when no downloaded file aliases the
store: the session's view is what the store file shows. -/
def storeOk (st : MergeState) : Prop :=
  st.visible = true ∧
    ∃ ts, fsGet st.fs storeName = some (DBFile.db ts) ∧ runsOf ts = st.tbl

/-! ### File-system lemmas -/

theorem fsGet_fsRemove (fs : FS) (n m : String) :
    fsGet (fsRemove fs n) m = if m = n then none else fsGet fs m := by
  induction fs with
  | nil => simp [fsRemove, fsGet]
  | cons e fs ih =>
    by_cases h1 : e.1 = n
    · by_cases h2 : m = n
      · subst h2
        simp [fsRemove, fsGet, h1]
        simpa using ih
      · have h3 : ¬ e.1 = m := by
          intro hh
          exact h2 (hh.symm.trans h1)
        have h4 : ¬ n = m := fun hh => h2 hh.symm
        simp [fsRemove, fsGet, h1, h2, h3, h4, ih]
    · by_cases h2 : e.1 = m
      · by_cases h3 : m = n
        · exact absurd (h2.trans h3) h1
        · simp [fsRemove, fsGet, h1, h2, h3]
      · simp [fsRemove, fsGet, h1, h2, ih]

theorem fsGet_fsPut (fs : FS) (n : String) (f : DBFile) (m : String) :
    fsGet (fsPut fs n f) m = if m = n then some f else fsGet fs m := by
  by_cases h : n = m
  · simp [fsPut, fsGet, h]
  · have h2 : ¬ m = n := fun hh => h hh.symm
    simp [fsPut, fsGet, h, h2, fsGet_fsRemove]

theorem fsGet_fsPut_self (fs : FS) (n : String) (f : DBFile) :
    fsGet (fsPut fs n f) n = some f := by
  simp [fsGet_fsPut]

theorem fsGet_fsPut_ne (fs : FS) (n : String) (f : DBFile) (m : String)
    (h : m ≠ n) : fsGet (fsPut fs n f) m = fsGet fs m := by
  simp [fsGet_fsPut, h]

theorem fsGet_fsRemove_ne (fs : FS) (n m : String) (h : m ≠ n) :
    fsGet (fsRemove fs n) m = fsGet fs m := by
  simp [fsGet_fsRemove, h]

theorem fsGet_fsRemove_self (fs : FS) (n : String) :
    fsGet (fsRemove fs n) n = none := by
  simp [fsGet_fsRemove]

/-! ### Algebra of the per-record merge -/

theorem runIds_append (a b : List Record) :
    runIds (a ++ b) = runIds a ++ runIds b := by
  simp [runIds]

theorem runIds_cons (r : Record) (rs : List Record) :
    runIds (r :: rs) = r.id :: runIds rs := rfl

theorem mergeRecord_eq_of_mem (tbl : List Record) (r : Record)
    (h : r.id ∈ runIds tbl) : mergeRecord tbl r = tbl := by
  unfold mergeRecord insertRun
  rw [if_pos h]

theorem mergeRecord_eq_of_not_mem (tbl : List Record) (r : Record)
    (h : r.id ∉ runIds tbl) : mergeRecord tbl r = tbl ++ [r] := by
  unfold mergeRecord insertRun
  rw [if_neg h]

theorem mem_runIds_mergeRecord (tbl : List Record) (r : Record) (i : String) :
    i ∈ runIds (mergeRecord tbl r) ↔ i ∈ runIds tbl ∨ i = r.id := by
  by_cases h : r.id ∈ runIds tbl
  · rw [mergeRecord_eq_of_mem _ _ h]
    constructor
    · exact Or.inl
    · rintro (hi | hi)
      · exact hi
      · rw [hi]
        exact h
  · rw [mergeRecord_eq_of_not_mem _ _ h, runIds_append]
    rw [List.mem_append]
    constructor
    · rintro (hi | hi)
      · exact Or.inl hi
      · exact Or.inr (by simpa [runIds] using hi)
    · rintro (hi | hi)
      · exact Or.inl hi
      · exact Or.inr (by simpa [runIds] using hi)

theorem mem_runIds_mergeRuns (rs : List Record) (tbl : List Record) (i : String) :
    i ∈ runIds (mergeRuns tbl rs) ↔ i ∈ runIds tbl ∨ i ∈ runIds rs := by
  induction rs generalizing tbl with
  | nil => simp [mergeRuns, runIds]
  | cons r rs ih =>
    show i ∈ runIds (mergeRuns (mergeRecord tbl r) rs) ↔ _
    rw [ih, mem_runIds_mergeRecord, runIds_cons, List.mem_cons]
    tauto

theorem mergeRecord_nodup (tbl : List Record) (r : Record)
    (h : (runIds tbl).Nodup) : (runIds (mergeRecord tbl r)).Nodup := by
  by_cases hm : r.id ∈ runIds tbl
  · rw [mergeRecord_eq_of_mem _ _ hm]
    exact h
  · rw [mergeRecord_eq_of_not_mem _ _ hm, runIds_append]
    have hone : runIds [r] = [r.id] := rfl
    rw [hone]
    have hd : List.Disjoint (runIds tbl) [r.id] := by
      intro a ha hr2
      rw [List.mem_singleton] at hr2
      exact hm (hr2 ▸ ha)
    exact List.Nodup.append h (List.nodup_singleton _) hd

theorem mergeRuns_nodup (rs : List Record) (tbl : List Record)
    (h : (runIds tbl).Nodup) : (runIds (mergeRuns tbl rs)).Nodup := by
  induction rs generalizing tbl with
  | nil => exact h
  | cons r rs ih => exact ih _ (mergeRecord_nodup _ _ h)

theorem mergeRuns_eq_of_ids_mem (rs : List Record) (tbl : List Record)
    (h : ∀ r ∈ rs, r.id ∈ runIds tbl) : mergeRuns tbl rs = tbl := by
  induction rs generalizing tbl with
  | nil => rfl
  | cons r rs ih =>
    have hr : mergeRecord tbl r = tbl :=
      mergeRecord_eq_of_mem tbl r (h r (by simp))
    show mergeRuns (mergeRecord tbl r) rs = tbl
    rw [hr]
    exact ih _ (fun x hx => h x (by simp [hx]))

theorem mergeRuns_append (tbl : List Record) (a b : List Record) :
    mergeRuns tbl (a ++ b) = mergeRuns (mergeRuns tbl a) b := by
  simp [mergeRuns, List.foldl_append]

/-! ### C2 and C6: algebraic properties of the per-record merge -/

/-- C2: Merge is idempotent: for every local store state and every list of
peer records, merging the same records a second time yields exactly the
record set produced by merging them once — the duplicate-tolerant insert
skips every record of the second pass, so a second sync against unchanged
remote state is a no-op on the store's records. -/
theorem C2_merge_idempotent (tbl rs : List Record) :
    mergeRuns (mergeRuns tbl rs) rs = mergeRuns tbl rs := by
  apply mergeRuns_eq_of_ids_mem
  intro r hr
  rw [mem_runIds_mergeRuns]
  exact Or.inr (List.mem_map_of_mem Record.id hr)

/-- C6: each record insert is its own atomic unit: a record whose insert
fails as a duplicate leaves the table exactly as it was (the attempt is
rolled back, nothing propagates), and the records after it are still
attempted exactly as if the duplicate had not been there. -/
theorem C6_duplicate_insert_isolated (tbl : List Record) (d : Record)
    (rest : List Record) (h : d.id ∈ runIds tbl) :
    mergeRecord tbl d = tbl ∧ mergeRuns tbl (d :: rest) = mergeRuns tbl rest := by
  refine ⟨mergeRecord_eq_of_mem _ _ h, ?_⟩
  show mergeRuns (mergeRecord tbl d) rest = mergeRuns tbl rest
  rw [mergeRecord_eq_of_mem _ _ h]

/-- Witness for C6 at a concrete input: inserting a record with the
already-present id "1" is rolled back and the record with id "2" after it
is still merged. -/
theorem C6_duplicate_insert_isolated_witness :
    ((Record.mk "1" "other").id ∈ runIds [Record.mk "1" "b1"]) ∧
      (mergeRecord [Record.mk "1" "b1"] (Record.mk "1" "other") =
          [Record.mk "1" "b1"] ∧
        mergeRuns [Record.mk "1" "b1"] (Record.mk "1" "other" :: [Record.mk "2" "b2"]) =
          mergeRuns [Record.mk "1" "b1"] [Record.mk "2" "b2"]) :=
  ⟨by decide, C6_duplicate_insert_isolated _ _ _ (by decide)⟩

/-! ### Download phase -/

theorem downloadLoop_names (rs : List RemoteObject) (fs : FS) :
    (downloadLoop fs rs).2 =
      (rs.takeWhile (fun r => r.fetchOk)).map RemoteObject.name := by
  induction rs generalizing fs with
  | nil => rfl
  | cons r rest ih =>
    by_cases h : r.fetchOk = true
    · simp [downloadLoop, h, ih, List.takeWhile_cons]
    · simp [downloadLoop, h, List.takeWhile_cons]

theorem downloadLoop_fsGet_not_mem (rs : List RemoteObject) (fs : FS)
    (m : String) (h : ∀ r ∈ rs, r.name ≠ m) :
    fsGet (downloadLoop fs rs).1 m = fsGet fs m := by
  induction rs generalizing fs with
  | nil => rfl
  | cons r rest ih =>
    by_cases hf : r.fetchOk = true
    · have hm : r.name ≠ m := h r (by simp)
      have := ih (fsPut fs r.name r.content) (fun x hx => h x (by simp [hx]))
      simp [downloadLoop, hf, this, fsGet_fsPut_ne fs r.name r.content m (fun hh => hm hh.symm)]
    · simp [downloadLoop, hf]

theorem downloadLoop_fsGet_mem (rs : List RemoteObject) (fs : FS)
    (hnd : (rs.map RemoteObject.name).Nodup)
    (hall : ∀ r ∈ rs, r.fetchOk = true) :
    ∀ r ∈ rs, fsGet (downloadLoop fs rs).1 r.name = some r.content := by
  induction rs generalizing fs with
  | nil => intro r hr; cases hr
  | cons a rest ih =>
    intro r hr
    have hf : a.fetchOk = true := hall a (by simp)
    rcases List.mem_cons.mp hr with h1 | h1
    · subst h1
      have hnr : ∀ x ∈ rest, x.name ≠ r.name := by
        intro x hx he
        have : r.name ∈ rest.map RemoteObject.name := he ▸ List.mem_map_of_mem _ hx
        exact (List.nodup_cons.mp (by simpa using hnd)).1 this
      simp [downloadLoop, hf, downloadLoop_fsGet_not_mem rest _ _ hnr,
        fsGet_fsPut_self]
    · have := ih (fsPut fs a.name a.content)
        (List.nodup_cons.mp (by simpa using hnd)).2
        (fun x hx => hall x (by simp [hx])) r h1
      simp [downloadLoop, hf, this]

/-- C3 counterexample: remote listing holds "a.db", whose fetch fails, and
then "b.db", whose fetch would succeed. The claim says the failure is only
excluded and every remaining peer is still fetched, so the phase's output
would be ["b.db"]; the code's single try around the whole loop instead
aborts on the first failure and returns []. -/
theorem C3_counterexample :
    (download [] true
        [RemoteObject.mk "a.db" (DBFile.db [("runs", [Record.mk "1" "b1"])]) false,
         RemoteObject.mk "b.db" (DBFile.db [("runs", [Record.mk "2" "b2"])]) true]).2
      = [] ∧
    (download [] true
        [RemoteObject.mk "a.db" (DBFile.db [("runs", [Record.mk "1" "b1"])]) false,
         RemoteObject.mk "b.db" (DBFile.db [("runs", [Record.mk "2" "b2"])]) true]).2
      ≠ ["b.db"] := by
  decide

/-- C3 (amended): in the download phase a fetch failure is caught and
logged and the failed object is excluded, but the loop aborts there: the
phase's output is the (names of the) longest successfully-fetched prefix
of the *.db-matching listing, not the set of all successful fetches; a
failed listing yields the empty result. -/
theorem C3_download_aborts_at_first_failure (fs : FS)
    (remotes : List RemoteObject) :
    (download fs true remotes).2 =
      ((remotes.filter (fun r => matchesDbGlob r.name)).takeWhile
          (fun r => r.fetchOk)).map RemoteObject.name ∧
    (download fs false remotes).2 = [] := by
  constructor
  · simp only [download, if_pos]
    exact downloadLoop_names _ _
  · rfl

/-! ### Merge phase: per-insert step lemmas -/

theorem commitFs_tbl (st : MergeState) : (commitFs st).tbl = st.tbl := by
  unfold commitFs
  split <;> rfl

theorem commitFs_visible (st : MergeState) :
    (commitFs st).visible = st.visible := by
  unfold commitFs
  split <;> rfl

theorem commitFs_fsGet_ne (st : MergeState) (m : String) (h : m ≠ storeName) :
    fsGet (commitFs st).fs m = fsGet st.fs m := by
  unfold commitFs
  split
  · exact fsGet_fsPut_ne _ _ _ _ h
  · rfl

theorem mergeInsert_tbl (st : MergeState) (r : Record) :
    (mergeInsert st r).tbl = mergeRecord st.tbl r := by
  unfold mergeInsert mergeRecord
  cases h : insertRun st.tbl r with
  | some t => exact commitFs_tbl _
  | none => rfl

theorem mergeInsert_visible (st : MergeState) (r : Record) :
    (mergeInsert st r).visible = st.visible := by
  unfold mergeInsert
  cases h : insertRun st.tbl r with
  | some t => exact commitFs_visible _
  | none => rfl

theorem mergeInsert_fsGet_ne (st : MergeState) (r : Record) (m : String)
    (h : m ≠ storeName) :
    fsGet (mergeInsert st r).fs m = fsGet st.fs m := by
  unfold mergeInsert
  cases hh : insertRun st.tbl r with
  | some t => exact commitFs_fsGet_ne _ _ h
  | none => rfl

theorem mergeInsert_store_validDb (st : MergeState) (r : Record)
    (h : validDb (fsGet st.fs storeName) = true) :
    validDb (fsGet (mergeInsert st r).fs storeName) = true := by
  unfold mergeInsert
  cases hh : insertRun st.tbl r with
  | some t =>
    by_cases hv : st.visible = true
    · simp [commitFs, hv, fsGet_fsPut_self, validDb]
    · simpa [commitFs, hv] using h
  | none => exact h

theorem mergeInsert_store_vm (st : MergeState) (r : Record)
    (h : validOrMissing (fsGet st.fs storeName) = true) :
    validOrMissing (fsGet (mergeInsert st r).fs storeName) = true := by
  unfold mergeInsert
  cases hh : insertRun st.tbl r with
  | some t =>
    by_cases hv : st.visible = true
    · simp [commitFs, hv, fsGet_fsPut_self, validOrMissing]
    · simpa [commitFs, hv] using h
  | none => exact h

theorem mergeInsert_storeVis (st : MergeState) (r : Record)
    (h : storeVis st) : storeVis (mergeInsert st r) := by
  intro hv
  rw [mergeInsert_visible] at hv
  exact mergeInsert_store_validDb st r (h hv)

theorem mergeInsert_storeOk (st : MergeState) (r : Record)
    (h : storeOk st) : storeOk (mergeInsert st r) := by
  obtain ⟨hv, ts, hts, hruns⟩ := h
  unfold mergeInsert
  cases hh : insertRun st.tbl r with
  | some t =>
    unfold commitFs
    simp only [hv, if_pos]
    refine ⟨rfl, [("runs", t)], fsGet_fsPut_self _ _ _, ?_⟩
    simp [runsOf]
  | none => exact ⟨hv, ts, hts, hruns⟩

theorem mergeInsert_fsGet_none (st : MergeState) (r : Record) (m : String)
    (hvis : storeVis st) (h : fsGet st.fs m = none) :
    fsGet (mergeInsert st r).fs m = none := by
  by_cases hm : m = storeName
  · subst hm
    unfold mergeInsert
    cases hh : insertRun st.tbl r with
    | some t =>
      by_cases hv : st.visible = true
      · exact absurd (hvis hv) (by simp [h, validDb])
      · simpa [commitFs, hv] using h
    | none => exact h
  · rw [mergeInsert_fsGet_ne st r m hm]
    exact h

/-! ### Merge phase: insert-loop (fold) lemmas -/

theorem foldInsert_tbl (rs : List Record) (st : MergeState) :
    (rs.foldl mergeInsert st).tbl = mergeRuns st.tbl rs := by
  induction rs generalizing st with
  | nil => rfl
  | cons r rs ih =>
    show ((rs.foldl mergeInsert (mergeInsert st r)).tbl) = _
    rw [ih, mergeInsert_tbl]
    rfl

theorem foldInsert_visible (rs : List Record) (st : MergeState) :
    (rs.foldl mergeInsert st).visible = st.visible := by
  induction rs generalizing st with
  | nil => rfl
  | cons r rs ih =>
    show ((rs.foldl mergeInsert (mergeInsert st r)).visible) = _
    rw [ih, mergeInsert_visible]

theorem foldInsert_fsGet_ne (rs : List Record) (st : MergeState) (m : String)
    (h : m ≠ storeName) :
    fsGet (rs.foldl mergeInsert st).fs m = fsGet st.fs m := by
  induction rs generalizing st with
  | nil => rfl
  | cons r rs ih =>
    show fsGet ((rs.foldl mergeInsert (mergeInsert st r)).fs) m = _
    rw [ih, mergeInsert_fsGet_ne st r m h]

theorem foldInsert_store_validDb (rs : List Record) (st : MergeState)
    (h : validDb (fsGet st.fs storeName) = true) :
    validDb (fsGet (rs.foldl mergeInsert st).fs storeName) = true := by
  induction rs generalizing st with
  | nil => exact h
  | cons r rs ih => exact ih _ (mergeInsert_store_validDb st r h)

theorem foldInsert_store_vm (rs : List Record) (st : MergeState)
    (h : validOrMissing (fsGet st.fs storeName) = true) :
    validOrMissing (fsGet (rs.foldl mergeInsert st).fs storeName) = true := by
  induction rs generalizing st with
  | nil => exact h
  | cons r rs ih => exact ih _ (mergeInsert_store_vm st r h)

theorem foldInsert_storeVis (rs : List Record) (st : MergeState)
    (h : storeVis st) : storeVis (rs.foldl mergeInsert st) := by
  induction rs generalizing st with
  | nil => exact h
  | cons r rs ih => exact ih _ (mergeInsert_storeVis st r h)

theorem foldInsert_storeOk (rs : List Record) (st : MergeState)
    (h : storeOk st) : storeOk (rs.foldl mergeInsert st) := by
  induction rs generalizing st with
  | nil => exact h
  | cons r rs ih => exact ih _ (mergeInsert_storeOk st r h)

theorem foldInsert_fsGet_none (rs : List Record) (st : MergeState) (m : String)
    (hvis : storeVis st) (h : fsGet st.fs m = none) :
    fsGet (rs.foldl mergeInsert st).fs m = none := by
  induction rs generalizing st with
  | nil => exact h
  | cons r rs ih =>
    exact ih _ (mergeInsert_storeVis st r hvis) (mergeInsert_fsGet_none st r m hvis h)

theorem foldInsert_fsGet_vm (rs : List Record) (st : MergeState) (m : String)
    (h : validOrMissing (fsGet st.fs m) = true) :
    validOrMissing (fsGet (rs.foldl mergeInsert st).fs m) = true := by
  by_cases hm : m = storeName
  · subst hm
    exact foldInsert_store_vm rs st h
  · rw [foldInsert_fsGet_ne rs st m hm]
    exact h

/-! ### Merge phase: per-file lemmas -/

theorem mergeFile_db (st : MergeState) (n : String)
    (ts : List (String × List Record)) (h : fsGet st.fs n = some (DBFile.db ts)) :
    mergeFile st n =
      some { fs := fsRemove ((runsOf ts).foldl mergeInsert st).fs n,
             tbl := ((runsOf ts).foldl mergeInsert st).tbl,
             visible := if n = storeName then false
                        else ((runsOf ts).foldl mergeInsert st).visible } := by
  unfold mergeFile
  rw [h]

theorem mergeFile_absent (st : MergeState) (n : String)
    (h : fsGet st.fs n = none) : mergeFile st n = some st := by
  unfold mergeFile
  rw [h]

theorem mergeFile_corrupt (st : MergeState) (n : String)
    (h : fsGet st.fs n = some DBFile.corrupt) : mergeFile st n = none := by
  unfold mergeFile
  rw [h]

theorem mergeFile_isSome_of_vm (st : MergeState) (n : String)
    (h : validOrMissing (fsGet st.fs n) = true) : (mergeFile st n).isSome = true := by
  cases hf : fsGet st.fs n with
  | none => rw [mergeFile_absent st n hf]; rfl
  | some f =>
    cases f with
    | db ts => rw [mergeFile_db st n ts hf]; rfl
    | corrupt => rw [hf] at h; simp [validOrMissing] at h

theorem mergeFile_storeVis (st st' : MergeState) (n : String)
    (hm : mergeFile st n = some st') (h : storeVis st) : storeVis st' := by
  cases hf : fsGet st.fs n with
  | none =>
    rw [mergeFile_absent st n hf] at hm
    cases hm
    exact h
  | some f =>
    cases f with
    | corrupt => rw [mergeFile_corrupt st n hf] at hm; cases hm
    | db ts =>
      rw [mergeFile_db st n ts hf] at hm
      cases hm
      intro hv
      by_cases hn : n = storeName
      · simp [hn] at hv
      · simp only [hn, if_neg, MergeState.visible] at hv
        have h2 := foldInsert_storeVis (runsOf ts) st h hv
        have h3 : (storeName : String) ≠ n := fun hh => hn hh.symm
        show validDb (fsGet (fsRemove _ n) storeName) = true
        rw [fsGet_fsRemove_ne _ _ _ h3]
        exact h2

theorem mergeFile_fsGet_vm (st st' : MergeState) (n m : String)
    (hm : mergeFile st n = some st')
    (h : validOrMissing (fsGet st.fs m) = true) :
    validOrMissing (fsGet st'.fs m) = true := by
  cases hf : fsGet st.fs n with
  | none =>
    rw [mergeFile_absent st n hf] at hm
    cases hm
    exact h
  | some f =>
    cases f with
    | corrupt => rw [mergeFile_corrupt st n hf] at hm; cases hm
    | db ts =>
      rw [mergeFile_db st n ts hf] at hm
      cases hm
      show validOrMissing (fsGet (fsRemove _ n) m) = true
      rw [fsGet_fsRemove]
      by_cases hmn : m = n
      · simp [hmn, validOrMissing]
      · simp only [hmn, if_neg]
        exact foldInsert_fsGet_vm (runsOf ts) st m h

theorem mergeFile_fsGet_none (st st' : MergeState) (n m : String)
    (hm : mergeFile st n = some st') (hvis : storeVis st)
    (h : fsGet st.fs m = none) : fsGet st'.fs m = none := by
  cases hf : fsGet st.fs n with
  | none =>
    rw [mergeFile_absent st n hf] at hm
    cases hm
    exact h
  | some f =>
    cases f with
    | corrupt => rw [mergeFile_corrupt st n hf] at hm; cases hm
    | db ts =>
      rw [mergeFile_db st n ts hf] at hm
      cases hm
      show fsGet (fsRemove _ n) m = none
      rw [fsGet_fsRemove]
      by_cases hmn : m = n
      · simp [hmn]
      · simp only [hmn, if_neg]
        exact foldInsert_fsGet_none (runsOf ts) st m hvis h

theorem mergeFile_removes (st st' : MergeState) (n : String)
    (hm : mergeFile st n = some st')
    (h : validOrMissing (fsGet st.fs n) = true) : fsGet st'.fs n = none := by
  cases hf : fsGet st.fs n with
  | none =>
    rw [mergeFile_absent st n hf] at hm
    cases hm
    exact hf
  | some f =>
    cases f with
    | corrupt => rw [hf] at h; simp [validOrMissing] at h
    | db ts =>
      rw [mergeFile_db st n ts hf] at hm
      cases hm
      show fsGet (fsRemove _ n) n = none
      exact fsGet_fsRemove_self _ n

/-! ### Merge phase: file-loop lemmas -/

theorem mergeLoop_cons_some (st st' : MergeState) (n : String)
    (rest : List String) (h : mergeFile st n = some st') :
    mergeLoop st (n :: rest) = mergeLoop st' rest := by
  show (match mergeFile st n with
        | some st2 => mergeLoop st2 rest
        | none => (st, some RaiseCause.peerRead)) = mergeLoop st' rest
  rw [h]

theorem mergeLoop_cons_none (st : MergeState) (n : String)
    (rest : List String) (h : mergeFile st n = none) :
    mergeLoop st (n :: rest) = (st, some RaiseCause.peerRead) := by
  show (match mergeFile st n with
        | some st2 => mergeLoop st2 rest
        | none => (st, some RaiseCause.peerRead)) = (st, some RaiseCause.peerRead)
  rw [h]

theorem mergeLoop_pres_none (names : List String) (st : MergeState)
    (m : String) (hvis : storeVis st) (h : fsGet st.fs m = none) :
    fsGet (mergeLoop st names).1.fs m = none := by
  induction names generalizing st with
  | nil => exact h
  | cons n rest ih =>
    cases hst : mergeFile st n with
    | none =>
      rw [mergeLoop_cons_none st n rest hst]
      exact h
    | some st' =>
      rw [mergeLoop_cons_some st st' n rest hst]
      exact ih st' (mergeFile_storeVis st st' n hst hvis)
        (mergeFile_fsGet_none st st' n m hst hvis h)

theorem mergeLoop_deletes (names : List String) (st : MergeState)
    (hvis : storeVis st)
    (hvm : ∀ n ∈ names, validOrMissing (fsGet st.fs n) = true) :
    (mergeLoop st names).2 = none ∧
      (∀ n ∈ names, fsGet (mergeLoop st names).1.fs n = none) := by
  induction names generalizing st with
  | nil =>
    refine ⟨rfl, ?_⟩
    intro n hn
    cases hn
  | cons n rest ih =>
    have hvmn := hvm n (by simp)
    obtain ⟨st', hst'⟩ :=
      Option.isSome_iff_exists.mp (mergeFile_isSome_of_vm st n hvmn)
    have hred := mergeLoop_cons_some st st' n rest hst'
    have hvis' := mergeFile_storeVis st st' n hst' hvis
    have hvm' : ∀ m ∈ rest, validOrMissing (fsGet st'.fs m) = true :=
      fun m hm => mergeFile_fsGet_vm st st' n m hst' (hvm m (by simp [hm]))
    obtain ⟨h1, h3⟩ := ih st' hvis' hvm'
    rw [hred]
    refine ⟨h1, ?_⟩
    intro m hm
    rcases List.mem_cons.mp hm with h4 | h4
    · subst h4
      exact mergeLoop_pres_none rest st' m hvis'
        (mergeFile_removes st st' m hst' hvmn)
    · exact h3 m h4

theorem mergeInsert_store_isSome (st : MergeState) (r : Record)
    (h : (fsGet st.fs storeName).isSome = true) :
    (fsGet (mergeInsert st r).fs storeName).isSome = true := by
  unfold mergeInsert
  cases hh : insertRun st.tbl r with
  | some t =>
    by_cases hv : st.visible = true
    · simp [commitFs, hv, fsGet_fsPut_self]
    · simpa [commitFs, hv] using h
  | none => exact h

theorem foldInsert_store_isSome (rs : List Record) (st : MergeState)
    (h : (fsGet st.fs storeName).isSome = true) :
    (fsGet (rs.foldl mergeInsert st).fs storeName).isSome = true := by
  induction rs generalizing st with
  | nil => exact h
  | cons r rs ih => exact ih _ (mergeInsert_store_isSome st r h)

theorem mergeFile_store_isSome (st st' : MergeState) (n : String)
    (hn : n ≠ storeName) (hm : mergeFile st n = some st')
    (h : (fsGet st.fs storeName).isSome = true) :
    (fsGet st'.fs storeName).isSome = true := by
  cases hf : fsGet st.fs n with
  | none =>
    rw [mergeFile_absent st n hf] at hm
    cases hm
    exact h
  | some f =>
    cases f with
    | corrupt => rw [mergeFile_corrupt st n hf] at hm; cases hm
    | db ts =>
      rw [mergeFile_db st n ts hf] at hm
      cases hm
      show (fsGet (fsRemove _ n) storeName).isSome = true
      rw [fsGet_fsRemove_ne _ _ _ (fun hh => hn hh.symm)]
      exact foldInsert_store_isSome (runsOf ts) st h

theorem mergeLoop_store_isSome (names : List String) (st : MergeState)
    (hsn : storeName ∉ names)
    (h : (fsGet st.fs storeName).isSome = true) :
    (fsGet (mergeLoop st names).1.fs storeName).isSome = true := by
  induction names generalizing st with
  | nil => exact h
  | cons n rest ih =>
    have hn : n ≠ storeName := fun hh => hsn (by simp [hh])
    cases hst : mergeFile st n with
    | none =>
      rw [mergeLoop_cons_none st n rest hst]
      exact h
    | some st' =>
      rw [mergeLoop_cons_some st st' n rest hst]
      exact ih st' (fun hh => hsn (List.mem_cons_of_mem _ hh))
        (mergeFile_store_isSome st st' n hn hst h)

/-! ### Merge phase: the record-level outcome of the file loop -/

theorem flatRunsOf_nil (fs : FS) : flatRunsOf fs [] = [] := rfl

theorem flatRunsOf_cons (fs : FS) (n : String) (ns : List String) :
    flatRunsOf fs (n :: ns) = entryRuns fs n ++ flatRunsOf fs ns := by
  simp [flatRunsOf]

theorem flatRunsOf_congr (ns : List String) (fs fs' : FS)
    (h : ∀ n ∈ ns, fsGet fs n = fsGet fs' n) :
    flatRunsOf fs ns = flatRunsOf fs' ns := by
  induction ns with
  | nil => rfl
  | cons n ns ih =>
    rw [flatRunsOf_cons, flatRunsOf_cons]
    have h1 : entryRuns fs n = entryRuns fs' n := by
      unfold entryRuns
      rw [h n (by simp)]
    rw [h1, ih (fun m hm => h m (by simp [hm]))]

theorem mergeLoop_runs (names : List String) (st : MergeState)
    (hnd : names.Nodup) (hsn : storeName ∉ names) (hok : storeOk st)
    (hval : ∀ n ∈ names, validDb (fsGet st.fs n) = true) :
    (mergeLoop st names).2 = none ∧
      storeOk (mergeLoop st names).1 ∧
      (mergeLoop st names).1.tbl = mergeRuns st.tbl (flatRunsOf st.fs names) := by
  induction names generalizing st with
  | nil => exact ⟨rfl, hok, rfl⟩
  | cons n rest ih =>
    have hn : n ≠ storeName := fun hh => hsn (by simp [hh])
    have hvn := hval n (by simp)
    obtain ⟨ts, hts⟩ : ∃ ts, fsGet st.fs n = some (DBFile.db ts) := by
      cases hf : fsGet st.fs n with
      | none => rw [hf] at hvn; simp [validDb] at hvn
      | some f =>
        cases f with
        | db ts => exact ⟨ts, rfl⟩
        | corrupt => rw [hf] at hvn; simp [validDb] at hvn
    have hmf := mergeFile_db st n ts hts
    set st2 := (runsOf ts).foldl mergeInsert st with hst2
    set st3 : MergeState :=
      { fs := fsRemove st2.fs n, tbl := st2.tbl,
        visible := if n = storeName then false else st2.visible } with hst3
    have hred := mergeLoop_cons_some st st3 n rest hmf
    -- the next state still satisfies the store invariant
    have hok2 : storeOk st2 := foldInsert_storeOk (runsOf ts) st hok
    have hok3 : storeOk st3 := by
      obtain ⟨hv2, ts2, hts2, hr2⟩ := hok2
      refine ⟨?_, ts2, ?_, hr2⟩
      · show (if n = storeName then false else st2.visible) = true
        rw [if_neg hn]
        exact hv2
      · show fsGet (fsRemove st2.fs n) storeName = some (DBFile.db ts2)
        rw [fsGet_fsRemove_ne _ _ _ (fun hh => hn hh.symm)]
        exact hts2
    -- entries of the remaining names are untouched
    have hpres : ∀ m ∈ rest, fsGet st3.fs m = fsGet st.fs m := by
      intro m hm
      have hmn : m ≠ n := by
        intro hh
        exact (List.nodup_cons.mp hnd).1 (hh ▸ hm)
      have hms : m ≠ storeName := fun hh => hsn (by simp [hh ▸ hm])
      show fsGet (fsRemove st2.fs n) m = fsGet st.fs m
      rw [fsGet_fsRemove_ne _ _ _ hmn]
      exact foldInsert_fsGet_ne (runsOf ts) st m hms
    have hval3 : ∀ m ∈ rest, validDb (fsGet st3.fs m) = true := by
      intro m hm
      rw [hpres m hm]
      exact hval m (by simp [hm])
    obtain ⟨h1, h2, h3⟩ := ih st3 (List.nodup_cons.mp hnd).2
      (fun hh => hsn (List.mem_cons_of_mem _ hh)) hok3 hval3
    rw [hred]
    refine ⟨h1, h2, ?_⟩
    rw [h3, flatRunsOf_cons]
    have he : entryRuns st.fs n = runsOf ts := by
      unfold entryRuns
      rw [hts]
      rfl
    have htbl3 : st3.tbl = mergeRuns st.tbl (runsOf ts) := by
      show st2.tbl = _
      rw [hst2, foldInsert_tbl]
    rw [flatRunsOf_congr rest st3.fs st.fs hpres, htbl3, he,
      mergeRuns_append]

/-! ### Whole-merge and whole-sync decomposition -/

theorem openStore_db (fs : FS) (ts0 : List (String × List Record))
    (hst : fsGet fs storeName = some (DBFile.db ts0)) :
    openStore fs = some (fs, runsOf ts0) := by
  unfold openStore
  rw [hst]

theorem merge_eq_mergeLoop (fs : FS) (names : List String)
    (ts0 : List (String × List Record))
    (hst : fsGet fs storeName = some (DBFile.db ts0)) :
    merge fs names =
      mergeLoop { fs := fs, tbl := runsOf ts0, visible := true } names := by
  unfold merge
  rw [openStore_db fs ts0 hst]

theorem merge_runs (fs : FS) (names : List String)
    (ts0 : List (String × List Record))
    (hst : fsGet fs storeName = some (DBFile.db ts0))
    (hnd : names.Nodup) (hsn : storeName ∉ names)
    (hval : ∀ n ∈ names, validDb (fsGet fs n) = true) :
    (merge fs names).2 = none ∧
      storeRuns (merge fs names).1.fs =
        mergeRuns (runsOf ts0) (flatRunsOf fs names) := by
  rw [merge_eq_mergeLoop fs names ts0 hst]
  set st0 : MergeState := { fs := fs, tbl := runsOf ts0, visible := true }
  have hok : storeOk st0 := ⟨rfl, ts0, hst, rfl⟩
  obtain ⟨h1, h2, h3⟩ := mergeLoop_runs names st0 hnd hsn hok hval
  refine ⟨h1, ?_⟩
  obtain ⟨hv, ts2, hts2, hr2⟩ := h2
  unfold storeRuns
  rw [hts2]
  show runsOf ts2 = _
  rw [hr2, h3]

theorem downloadLoop_names_all_ok (rs : List RemoteObject) (fs : FS)
    (h : ∀ r ∈ rs, r.fetchOk = true) :
    (downloadLoop fs rs).2 = rs.map (fun r => r.name) := by
  induction rs generalizing fs with
  | nil => rfl
  | cons r rest ih =>
    simp [downloadLoop, h r (by simp), ih _ (fun x hx => h x (by simp [hx]))]

theorem download_true_eq (fs : FS) (remotes : List RemoteObject)
    (hglob : ∀ r ∈ remotes, matchesDbGlob r.name = true) :
    download fs true remotes = downloadLoop fs remotes := by
  unfold download
  rw [if_pos rfl, List.filter_eq_self.mpr hglob]

theorem flatRunsOf_downloaded (remotes : List RemoteObject) (fs1 : FS)
    (h : ∀ r ∈ remotes, fsGet fs1 r.name = some r.content) :
    flatRunsOf fs1 (remotes.map (fun r => r.name)) = remotesRuns remotes := by
  induction remotes with
  | nil => rfl
  | cons r rest ih =>
    rw [List.map_cons, flatRunsOf_cons]
    have h1 : entryRuns fs1 r.name = fileRuns r.content := by
      unfold entryRuns
      rw [h r (by simp)]
    rw [h1, ih (fun x hx => h x (by simp [hx]))]
    simp [remotesRuns]

theorem sync_true_eq (fs : FS) (remotes : List RemoteObject)
    (env : Option String) (osu : String) (listOk putOk : Bool)
    (hraise :
      (merge (download fs listOk remotes).1 (download fs listOk remotes).2).2 = none) :
    sync true fs remotes env osu listOk putOk =
      { fs := (merge (download fs listOk remotes).1 (download fs listOk remotes).2).1.fs,
        remote := upload
          (merge (download fs listOk remotes).1 (download fs listOk remotes).2).1.fs
          (remoteMap remotes) env osu putOk,
        raised := none } := by
  unfold sync
  rw [if_pos rfl]
  simp only [hraise]

theorem sync_storeRuns (fs : FS) (remotes : List RemoteObject)
    (env : Option String) (osu : String) (putOk : Bool)
    (ts0 : List (String × List Record))
    (hst : fsGet fs storeName = some (DBFile.db ts0))
    (hglob : ∀ r ∈ remotes, matchesDbGlob r.name = true)
    (hfetch : ∀ r ∈ remotes, r.fetchOk = true)
    (hvalid : ∀ r ∈ remotes, validDb (some r.content) = true)
    (hnd : (remotes.map (fun r => r.name)).Nodup)
    (hns : ∀ r ∈ remotes, r.name ≠ storeName) :
    (sync true fs remotes env osu true putOk).raised = none ∧
      storeRuns (sync true fs remotes env osu true putOk).fs =
        mergeRuns (runsOf ts0) (remotesRuns remotes) := by
  have hd : download fs true remotes = downloadLoop fs remotes :=
    download_true_eq fs remotes hglob
  have hnames : (downloadLoop fs remotes).2 = remotes.map (fun r => r.name) :=
    downloadLoop_names_all_ok remotes fs hfetch
  have hst1 : fsGet (downloadLoop fs remotes).1 storeName = some (DBFile.db ts0) := by
    rw [downloadLoop_fsGet_not_mem remotes fs storeName hns]
    exact hst
  have hentries : ∀ r ∈ remotes,
      fsGet (downloadLoop fs remotes).1 r.name = some r.content :=
    downloadLoop_fsGet_mem remotes fs hnd hfetch
  have hval1 : ∀ n ∈ remotes.map (fun r => r.name),
      validDb (fsGet (downloadLoop fs remotes).1 n) = true := by
    intro n hn
    obtain ⟨r, hr, hrn⟩ := List.mem_map.mp hn
    rw [← hrn, hentries r hr]
    exact hvalid r hr
  have hsn : storeName ∉ remotes.map (fun r => r.name) := by
    intro hmem
    obtain ⟨r, hr, hrn⟩ := List.mem_map.mp hmem
    exact hns r hr hrn
  have hm := merge_runs (downloadLoop fs remotes).1 (remotes.map (fun r => r.name))
    ts0 hst1 hnd hsn hval1
  have hraise :
      (merge (download fs true remotes).1 (download fs true remotes).2).2 = none := by
    rw [hd, hnames]
    exact hm.1
  have hs := sync_true_eq fs remotes env osu true putOk hraise
  rw [hs]
  refine ⟨rfl, ?_⟩
  show storeRuns (merge (download fs true remotes).1 (download fs true remotes).2).1.fs = _
  rw [hd, hnames, hm.2, flatRunsOf_downloaded remotes _ hentries]

/-! ### C1: set-union correctness of a full sync -/

theorem mem_peersIdSet_aux (remotes : List RemoteObject) (acc : Finset String)
    (i : String) :
    i ∈ remotes.foldl (fun a r => a ∪ (runIds (fileRuns r.content)).toFinset) acc ↔
      i ∈ acc ∨ ∃ r ∈ remotes, i ∈ runIds (fileRuns r.content) := by
  induction remotes generalizing acc with
  | nil => simp
  | cons r rest ih =>
    rw [List.foldl_cons, ih]
    simp [Finset.mem_union, List.mem_toFinset]
    tauto

theorem mem_peersIdSet (remotes : List RemoteObject) (i : String) :
    i ∈ peersIdSet remotes ↔ ∃ r ∈ remotes, i ∈ runIds (fileRuns r.content) := by
  unfold peersIdSet
  rw [mem_peersIdSet_aux]
  simp

theorem mem_runIds_remotesRuns (remotes : List RemoteObject) (i : String) :
    i ∈ runIds (remotesRuns remotes) ↔
      ∃ r ∈ remotes, i ∈ runIds (fileRuns r.content) := by
  induction remotes with
  | nil => simp [remotesRuns, runIds]
  | cons r rest ih =>
    have hcons : remotesRuns (r :: rest) = fileRuns r.content ++ remotesRuns rest := by
      simp [remotesRuns]
    rw [hcons, runIds_append, List.mem_append, ih]
    constructor
    · rintro (h | ⟨x, hx, hi⟩)
      · exact ⟨r, by simp, h⟩
      · exact ⟨x, by simp [hx], hi⟩
    · rintro ⟨x, hx, hi⟩
      rcases List.mem_cons.mp hx with h1 | h1
      · subst h1
        exact Or.inl hi
      · exact Or.inr ⟨x, h1, hi⟩

/-- C1 counterexample: the local store holds the record with id "0"; the
remote listing holds a single (well-formed, fetchable) object whose base
name is exactly "session_store.db". The claim says that after one full
sync the local store's identifier set is {"0", "1"}. Instead the download
overwrites the local store file with the peer file, and the merge then
deletes that file: afterwards the local store file does not exist and id
"0" is not in the store. -/
theorem C1_counterexample :
    fsGet (sync true
        [(storeName, DBFile.db [("runs", [Record.mk "0" "b0"])])]
        [RemoteObject.mk "session_store.db"
          (DBFile.db [("runs", [Record.mk "1" "b1"])]) true]
        none "alice" true true).fs storeName = none ∧
    ¬ ("0" ∈ runIds (storeRuns (sync true
        [(storeName, DBFile.db [("runs", [Record.mk "0" "b0"])])]
        [RemoteObject.mk "session_store.db"
          (DBFile.db [("runs", [Record.mk "1" "b1"])]) true]
        none "alice" true true).fs)) := by
  decide

/-- C1 (amended): given a local store with identifier set S0 and a remote
listing of well-formed, successfully fetched *.db peer objects with
pairwise-distinct base names, none of which is named "session_store.db",
one full sync raises nothing and leaves the local store with identifier
set S0 ∪ S1 ∪ … ∪ Sn and with exactly one record per identifier. (The
claim as stated, without the "session_store.db" proviso, is refuted by
the counterexample.) -/
theorem C1_sync_set_union (fs : FS) (remotes : List RemoteObject)
    (env : Option String) (osu : String) (putOk : Bool)
    (ts0 : List (String × List Record))
    (hst : fsGet fs storeName = some (DBFile.db ts0))
    (hnd0 : (runIds (runsOf ts0)).Nodup)
    (hglob : remotes.all (fun r => matchesDbGlob r.name) = true)
    (hfetch : remotes.all (fun r => r.fetchOk) = true)
    (hvalid : remotes.all (fun r => validDb (some r.content)) = true)
    (hnd : (remotes.map (fun r => r.name)).Nodup)
    (hns : remotes.all (fun r => decide (r.name ≠ storeName)) = true) :
    (sync true fs remotes env osu true putOk).raised = none ∧
      (runIds (storeRuns (sync true fs remotes env osu true putOk).fs)).toFinset =
        (runIds (runsOf ts0)).toFinset ∪ peersIdSet remotes ∧
      (runIds (storeRuns (sync true fs remotes env osu true putOk).fs)).Nodup := by
  have hglob2 := List.all_eq_true.mp hglob
  have hfetch2 := List.all_eq_true.mp hfetch
  have hvalid2 := List.all_eq_true.mp hvalid
  have hns2 : ∀ r ∈ remotes, r.name ≠ storeName :=
    fun r hr => of_decide_eq_true (List.all_eq_true.mp hns r hr)
  obtain ⟨h1, h2⟩ :=
    sync_storeRuns fs remotes env osu putOk ts0 hst hglob2 hfetch2 hvalid2 hnd hns2
  refine ⟨h1, ?_, ?_⟩
  · ext i
    rw [List.mem_toFinset, h2, mem_runIds_mergeRuns, Finset.mem_union,
      List.mem_toFinset, mem_peersIdSet, mem_runIds_remotesRuns]
  · rw [h2]
    exact mergeRuns_nodup _ _ hnd0

/-- Witness for C1 at a concrete input: local store {id "0"}, two healthy
peers "a.db" = {id "1"} and "b.db" = {id "1", id "2"} (overlapping); every
hypothesis of the amended theorem holds and the theorem applies. -/
theorem C1_sync_set_union_witness :
    (fsGet [(storeName, DBFile.db [("runs", [Record.mk "0" "b0"])])] storeName =
        some (DBFile.db [("runs", [Record.mk "0" "b0"])])) ∧
    (runIds (runsOf [("runs", [Record.mk "0" "b0"])])).Nodup ∧
    ([RemoteObject.mk "a.db" (DBFile.db [("runs", [Record.mk "1" "x1"])]) true,
      RemoteObject.mk "b.db"
        (DBFile.db [("runs", [Record.mk "1" "x1", Record.mk "2" "x2"])]) true].all
        (fun r => matchesDbGlob r.name) = true) ∧
    ((sync true [(storeName, DBFile.db [("runs", [Record.mk "0" "b0"])])]
        [RemoteObject.mk "a.db" (DBFile.db [("runs", [Record.mk "1" "x1"])]) true,
         RemoteObject.mk "b.db"
           (DBFile.db [("runs", [Record.mk "1" "x1", Record.mk "2" "x2"])]) true]
        none "alice" true true).raised = none ∧
      (runIds (storeRuns (sync true
          [(storeName, DBFile.db [("runs", [Record.mk "0" "b0"])])]
          [RemoteObject.mk "a.db" (DBFile.db [("runs", [Record.mk "1" "x1"])]) true,
           RemoteObject.mk "b.db"
             (DBFile.db [("runs", [Record.mk "1" "x1", Record.mk "2" "x2"])]) true]
          none "alice" true true).fs)).toFinset =
        (runIds (runsOf [("runs", [Record.mk "0" "b0"])])).toFinset ∪
          peersIdSet
            [RemoteObject.mk "a.db" (DBFile.db [("runs", [Record.mk "1" "x1"])]) true,
             RemoteObject.mk "b.db"
               (DBFile.db [("runs", [Record.mk "1" "x1", Record.mk "2" "x2"])]) true] ∧
      (runIds (storeRuns (sync true
          [(storeName, DBFile.db [("runs", [Record.mk "0" "b0"])])]
          [RemoteObject.mk "a.db" (DBFile.db [("runs", [Record.mk "1" "x1"])]) true,
           RemoteObject.mk "b.db"
             (DBFile.db [("runs", [Record.mk "1" "x1", Record.mk "2" "x2"])]) true]
          none "alice" true true).fs)).Nodup) :=
  ⟨by decide, by decide, by decide,
    C1_sync_set_union _ _ none "alice" true _ (by decide) (by decide) (by decide)
      (by decide) (by decide) (by decide) (by decide)⟩

/-! ### C4: deletion of transient peer files -/

/-- C4 counterexample: the working directory holds a healthy local store
and the downloaded peer file "bad.db", which is corrupt. The claim says
that after the merge phase zero transient peer files remain; instead
reading "bad.db" raises out of `_merge` before `os.remove`, and the file
is still there afterwards. -/
theorem C4_counterexample :
    (merge [(storeName, DBFile.db [("runs", [])]), ("bad.db", DBFile.corrupt)]
        ["bad.db"]).2 = some RaiseCause.peerRead ∧
    fsGet (merge [(storeName, DBFile.db [("runs", [])]),
        ("bad.db", DBFile.corrupt)] ["bad.db"]).1.fs "bad.db" =
      some DBFile.corrupt := by
  decide

/-- C4 (amended): when every downloaded peer file is readable as a
database (no corrupt file), the merge phase raises nothing and afterwards
none of the downloaded files remains in the working directory — deletion
is unconditional with respect to insert failures, but not with respect to
read errors, which leave the failing file and all later ones behind (see
the counterexample). -/
theorem C4_merge_deletes_readable (fs : FS) (dbs : List String)
    (hopen : (openStore fs).isSome = true)
    (hvm : dbs.all (fun n => validOrMissing (fsGet fs n)) = true) :
    (merge fs dbs).2 = none ∧
      dbs.all (fun n => (fsGet (merge fs dbs).1.fs n).isNone) = true := by
  have hvm2 : ∀ n ∈ dbs, validOrMissing (fsGet fs n) = true :=
    List.all_eq_true.mp hvm
  cases hso : fsGet fs storeName with
  | some f =>
    cases f with
    | corrupt =>
      have : openStore fs = none := by
        unfold openStore
        rw [hso]
      rw [this] at hopen
      simp at hopen
    | db ts =>
      have hmerge := merge_eq_mergeLoop fs dbs ts hso
      have hvis : storeVis { fs := fs, tbl := runsOf ts, visible := true } := by
        intro _
        show validDb (fsGet fs storeName) = true
        rw [hso]
        rfl
      obtain ⟨h1, h2⟩ :=
        mergeLoop_deletes dbs { fs := fs, tbl := runsOf ts, visible := true }
          hvis hvm2
      refine ⟨by rw [hmerge]; exact h1, ?_⟩
      rw [List.all_eq_true]
      intro n hn
      rw [hmerge]
      rw [h2 n hn]
      rfl
  | none =>
    have hopen2 : openStore fs =
        some (fsPut fs storeName (DBFile.db [("runs", [])]), []) := by
      unfold openStore
      rw [hso]
    have hmerge : merge fs dbs =
        mergeLoop { fs := fsPut fs storeName (DBFile.db [("runs", [])]),
                    tbl := [], visible := true } dbs := by
      unfold merge
      rw [hopen2]
    have hvis : storeVis { fs := fsPut fs storeName (DBFile.db [("runs", [])]),
                           tbl := [], visible := true } := by
      intro _
      show validDb (fsGet (fsPut fs storeName (DBFile.db [("runs", [])])) storeName) = true
      rw [fsGet_fsPut_self]
      rfl
    have hvm3 : ∀ n ∈ dbs,
        validOrMissing (fsGet (fsPut fs storeName (DBFile.db [("runs", [])])) n) = true := by
      intro n hn
      by_cases hns : n = storeName
      · subst hns
        rw [fsGet_fsPut_self]
        rfl
      · rw [fsGet_fsPut_ne _ _ _ _ hns]
        exact hvm2 n hn
    obtain ⟨h1, h2⟩ := mergeLoop_deletes dbs _ hvis hvm3
    refine ⟨by rw [hmerge]; exact h1, ?_⟩
    rw [List.all_eq_true]
    intro n hn
    rw [hmerge, h2 n hn]
    rfl

/-- Witness for C4 at a concrete input: the downloaded file "p.db" holds
only a record whose id "0" already exists locally; every insert from it
fails as a duplicate, and the file is deleted all the same. -/
theorem C4_merge_deletes_readable_witness :
    ((openStore [(storeName, DBFile.db [("runs", [Record.mk "0" "b0"])]),
        ("p.db", DBFile.db [("runs", [Record.mk "0" "dup"])])]).isSome = true) ∧
    (["p.db"].all (fun n => validOrMissing
        (fsGet [(storeName, DBFile.db [("runs", [Record.mk "0" "b0"])]),
          ("p.db", DBFile.db [("runs", [Record.mk "0" "dup"])])] n)) = true) ∧
    ((merge [(storeName, DBFile.db [("runs", [Record.mk "0" "b0"])]),
        ("p.db", DBFile.db [("runs", [Record.mk "0" "dup"])])] ["p.db"]).2 = none ∧
      ["p.db"].all (fun n => (fsGet (merge
          [(storeName, DBFile.db [("runs", [Record.mk "0" "b0"])]),
           ("p.db", DBFile.db [("runs", [Record.mk "0" "dup"])])]
          ["p.db"]).1.fs n).isNone) = true) :=
  ⟨by decide, by decide,
    C4_merge_deletes_readable _ _ (by decide) (by decide)⟩

/-! ### C7: survival of the local store file -/

theorem merge_store_isSome (fs : FS) (dbs : List String)
    (hsn : storeName ∉ dbs) :
    (fsGet (merge fs dbs).1.fs storeName).isSome = true := by
  cases hso : fsGet fs storeName with
  | some f =>
    cases f with
    | corrupt =>
      have hopen : openStore fs = none := by
        unfold openStore
        rw [hso]
      unfold merge
      rw [hopen]
      show (fsGet fs storeName).isSome = true
      rw [hso]
      rfl
    | db ts =>
      rw [merge_eq_mergeLoop fs dbs ts hso]
      refine mergeLoop_store_isSome dbs _ hsn ?_
      show (fsGet fs storeName).isSome = true
      rw [hso]
      rfl
  | none =>
    have hopen2 : openStore fs =
        some (fsPut fs storeName (DBFile.db [("runs", [])]), []) := by
      unfold openStore
      rw [hso]
    have hmerge : merge fs dbs =
        mergeLoop { fs := fsPut fs storeName (DBFile.db [("runs", [])]),
                    tbl := [], visible := true } dbs := by
      unfold merge
      rw [hopen2]
    rw [hmerge]
    refine mergeLoop_store_isSome dbs _ hsn ?_
    show (fsGet (fsPut fs storeName (DBFile.db [("runs", [])])) storeName).isSome = true
    rw [fsGet_fsPut_self]
    rfl

theorem download_true_filter (fs : FS) (remotes : List RemoteObject) :
    download fs true remotes =
      downloadLoop fs (remotes.filter (fun r => matchesDbGlob r.name)) := by
  unfold download
  rw [if_pos rfl]

theorem download_names_from_remotes (fs : FS) (listOk : Bool)
    (remotes : List RemoteObject) :
    ∀ n ∈ (download fs listOk remotes).2, ∃ r ∈ remotes, r.name = n := by
  intro n hn
  cases listOk with
  | false =>
    simp [download] at hn
  | true =>
    rw [download_true_filter] at hn
    rw [downloadLoop_names] at hn
    obtain ⟨r, hr, hrn⟩ := List.mem_map.mp hn
    have h1 : r ∈ remotes.filter (fun r => matchesDbGlob r.name) :=
      (List.takeWhile_sublist _).subset hr
    exact ⟨r, (List.filter_sublist _).subset h1, hrn⟩

theorem download_fsGet_store (fs : FS) (listOk : Bool)
    (remotes : List RemoteObject)
    (hns : ∀ r ∈ remotes, r.name ≠ storeName) :
    fsGet (download fs listOk remotes).1 storeName = fsGet fs storeName := by
  cases listOk with
  | false => rfl
  | true =>
    rw [download_true_filter]
    refine downloadLoop_fsGet_not_mem _ _ _ ?_
    intro r hr
    exact hns r ((List.filter_sublist _).subset hr)

theorem sync_true_fs_eq (fs : FS) (remotes : List RemoteObject)
    (env : Option String) (osu : String) (listOk putOk : Bool) :
    (sync true fs remotes env osu listOk putOk).fs =
      (merge (download fs listOk remotes).1 (download fs listOk remotes).2).1.fs := by
  cases hm2 : (merge (download fs listOk remotes).1 (download fs listOk remotes).2).2 with
  | none => simp [sync, hm2]
  | some c => simp [sync, hm2]

/-- C7 counterexample: the remote listing contains an object whose base
name is exactly "session_store.db". The claim quantifies over every set
of remote object names and says the local store file still exists after
the download and merge operations; instead the peer file is fetched onto
the local store path and `_merge` then deletes it — afterwards there is
no file at the store location. -/
theorem C7_counterexample :
    fsGet (merge
        (download [(storeName, DBFile.db [("runs", [Record.mk "7" "b7"])])] true
          [RemoteObject.mk "session_store.db"
            (DBFile.db [("runs", [Record.mk "8" "b8"])]) true]).1
        (download [(storeName, DBFile.db [("runs", [Record.mk "7" "b7"])])] true
          [RemoteObject.mk "session_store.db"
            (DBFile.db [("runs", [Record.mk "8" "b8"])]) true]).2).1.fs
      storeName = none := by
  decide

/-- C7 (amended): the local store file survives every merge whose
downloaded-file list does not contain the name "session_store.db", and
every sync whose remote listing contains no object with that base name
(when the store file existed beforehand, or the remote is configured so
that the merge phase creates it); a remote object named exactly
"session_store.db" defeats this, per the counterexample. -/
theorem C7_store_survives (fs : FS) (dbs : List String)
    (remotes : List RemoteObject) (env : Option String) (osu : String)
    (rc listOk putOk : Bool)
    (hdbs : dbs.all (fun n => decide (n ≠ storeName)) = true)
    (hrem : remotes.all (fun r => decide (r.name ≠ storeName)) = true)
    (hex : (fsGet fs storeName).isSome = true) :
    (fsGet (merge fs dbs).1.fs storeName).isSome = true ∧
      (fsGet (sync rc fs remotes env osu listOk putOk).fs storeName).isSome = true := by
  have hsn : storeName ∉ dbs := by
    intro hmem
    exact of_decide_eq_true (List.all_eq_true.mp hdbs storeName hmem) rfl
  have hns : ∀ r ∈ remotes, r.name ≠ storeName :=
    fun r hr => of_decide_eq_true (List.all_eq_true.mp hrem r hr)
  refine ⟨merge_store_isSome fs dbs hsn, ?_⟩
  cases rc with
  | false =>
    show (fsGet fs storeName).isSome = true
    exact hex
  | true =>
    rw [sync_true_fs_eq]
    refine merge_store_isSome _ _ ?_
    intro hmem
    obtain ⟨r, hr, hrn⟩ := download_names_from_remotes fs listOk remotes storeName hmem
    exact hns r hr hrn

/-- Witness for C7 at a concrete input: one ordinary peer name "bob.db"
remotely and one downloaded file "bob.db" locally; the store file exists
after the merge and after a full sync. -/
theorem C7_store_survives_witness :
    (["bob.db"].all (fun n => decide (n ≠ storeName)) = true) ∧
    ([RemoteObject.mk "bob.db" (DBFile.db [("runs", [Record.mk "9" "b9"])]) true].all
        (fun r => decide (r.name ≠ storeName)) = true) ∧
    ((fsGet [(storeName, DBFile.db [("runs", [Record.mk "7" "b7"])]),
        ("bob.db", DBFile.db [("runs", [Record.mk "9" "b9"])])] storeName).isSome = true) ∧
    ((fsGet (merge [(storeName, DBFile.db [("runs", [Record.mk "7" "b7"])]),
          ("bob.db", DBFile.db [("runs", [Record.mk "9" "b9"])])]
          ["bob.db"]).1.fs storeName).isSome = true ∧
      (fsGet (sync true [(storeName, DBFile.db [("runs", [Record.mk "7" "b7"])]),
            ("bob.db", DBFile.db [("runs", [Record.mk "9" "b9"])])]
          [RemoteObject.mk "bob.db" (DBFile.db [("runs", [Record.mk "9" "b9"])]) true]
          none "alice" true true).fs storeName).isSome = true) :=
  ⟨by decide, by decide, by decide,
    C7_store_survives _ _ _ none "alice" true true true (by decide) (by decide)
      (by decide)⟩

/-! ### C5: what escapes sync -/

theorem validOrMissing_of_validDb (o : Option DBFile) (h : validDb o = true) :
    validOrMissing o = true := by
  cases o with
  | none => rfl
  | some f =>
    cases f with
    | db ts => rfl
    | corrupt => simp [validDb] at h

theorem fsNoCorrupt_fsGet (fs : FS) (n : String) (h : fsNoCorrupt fs = true) :
    validOrMissing (fsGet fs n) = true := by
  induction fs with
  | nil => rfl
  | cons e fs ih =>
    have h2 : validDb (some e.2) = true ∧ fsNoCorrupt fs = true := by
      simpa [fsNoCorrupt, List.all_cons] using h
    show validOrMissing (if e.1 = n then some e.2 else fsGet fs n) = true
    by_cases he : e.1 = n
    · rw [if_pos he]
      exact validOrMissing_of_validDb _ h2.1
    · rw [if_neg he]
      exact ih h2.2

theorem fsNoCorrupt_fsRemove (fs : FS) (n : String)
    (h : fsNoCorrupt fs = true) : fsNoCorrupt (fsRemove fs n) = true := by
  induction fs with
  | nil => rfl
  | cons e fs ih =>
    have h2 : validDb (some e.2) = true ∧ fsNoCorrupt fs = true := by
      simpa [fsNoCorrupt, List.all_cons] using h
    show fsNoCorrupt (if e.1 = n then fsRemove fs n else e :: fsRemove fs n) = true
    by_cases he : e.1 = n
    · rw [if_pos he]
      exact ih h2.2
    · rw [if_neg he]
      have hrem := List.all_eq_true.mp (ih h2.2)
      simpa [fsNoCorrupt, List.all_cons] using
        ⟨h2.1, fun a b hab => hrem (a, b) hab⟩

theorem fsNoCorrupt_fsPut (fs : FS) (n : String) (f : DBFile)
    (h : fsNoCorrupt fs = true) (hf : validDb (some f) = true) :
    fsNoCorrupt (fsPut fs n f) = true := by
  unfold fsPut
  have hrem := List.all_eq_true.mp (fsNoCorrupt_fsRemove fs n h)
  simpa [fsNoCorrupt, List.all_cons] using
    ⟨hf, fun a b hab => hrem (a, b) hab⟩

theorem downloadLoop_noCorrupt (rs : List RemoteObject) (fs : FS)
    (h : fsNoCorrupt fs = true)
    (hv : ∀ r ∈ rs, validDb (some r.content) = true) :
    fsNoCorrupt (downloadLoop fs rs).1 = true := by
  induction rs generalizing fs with
  | nil => exact h
  | cons r rest ih =>
    by_cases hf : r.fetchOk = true
    · simp only [downloadLoop, hf, if_pos]
      exact ih _ (fsNoCorrupt_fsPut fs r.name r.content h (hv r (by simp)))
        (fun x hx => hv x (by simp [hx]))
    · simpa [downloadLoop, hf] using h

theorem download_noCorrupt (fs : FS) (listOk : Bool)
    (remotes : List RemoteObject) (h : fsNoCorrupt fs = true)
    (hv : ∀ r ∈ remotes, validDb (some r.content) = true) :
    fsNoCorrupt (download fs listOk remotes).1 = true := by
  cases listOk with
  | false => exact h
  | true =>
    rw [download_true_filter]
    exact downloadLoop_noCorrupt _ fs h
      (fun r hr => hv r ((List.filter_sublist _).subset hr))

theorem merge_no_raise (fs : FS) (dbs : List String)
    (h : fsNoCorrupt fs = true) : (merge fs dbs).2 = none := by
  cases hso : fsGet fs storeName with
  | some f =>
    cases f with
    | corrupt =>
      have := fsNoCorrupt_fsGet fs storeName h
      rw [hso] at this
      simp [validOrMissing] at this
    | db ts =>
      rw [merge_eq_mergeLoop fs dbs ts hso]
      have hvis : storeVis { fs := fs, tbl := runsOf ts, visible := true } := by
        intro _
        show validDb (fsGet fs storeName) = true
        rw [hso]
        rfl
      exact (mergeLoop_deletes dbs _ hvis
        (fun n _ => fsNoCorrupt_fsGet fs n h)).1
  | none =>
    have hopen2 : openStore fs =
        some (fsPut fs storeName (DBFile.db [("runs", [])]), []) := by
      unfold openStore
      rw [hso]
    have hput : fsNoCorrupt (fsPut fs storeName (DBFile.db [("runs", [])])) = true :=
      fsNoCorrupt_fsPut fs storeName _ h rfl
    have hmerge : merge fs dbs =
        mergeLoop { fs := fsPut fs storeName (DBFile.db [("runs", [])]),
                    tbl := [], visible := true } dbs := by
      unfold merge
      rw [hopen2]
    rw [hmerge]
    have hvis : storeVis { fs := fsPut fs storeName (DBFile.db [("runs", [])]),
                           tbl := [], visible := true } := by
      intro _
      show validDb (fsGet (fsPut fs storeName (DBFile.db [("runs", [])])) storeName) = true
      rw [fsGet_fsPut_self]
      rfl
    exact (mergeLoop_deletes dbs _ hvis
      (fun n _ => fsNoCorrupt_fsGet _ n hput)).1

/-- C5 counterexample: the remote holds one fetchable object "evil.db"
whose downloaded copy is corrupt. The claim says sync never raises past
its boundary except local-store-open failures; instead reading the
downloaded file raises out of `_merge` and hence out of `sync`, and the
cause is not a store-open failure. -/
theorem C5_counterexample :
    (sync true [] [RemoteObject.mk "evil.db" DBFile.corrupt true]
        none "user" true true).raised = some RaiseCause.peerRead ∧
    some RaiseCause.peerRead ≠ some RaiseCause.storeOpen := by
  decide

/-- C5 (amended): every remote failure (listing, fetch, upload) and every
insert failure is caught inside the cycle: whenever the working directory
and the fetched peer contents contain no corrupt database file, sync
raises nothing, whatever the listing, per-fetch and upload outcomes are.
What can still escape, besides store-open failures, is an error while
reading a downloaded peer file (see the counterexample). -/
theorem C5_sync_no_raise (fs : FS) (remotes : List RemoteObject)
    (env : Option String) (osu : String) (rc listOk putOk : Bool)
    (h : fsNoCorrupt fs = true)
    (hv : remotes.all (fun r => validDb (some r.content)) = true) :
    (sync rc fs remotes env osu listOk putOk).raised = none := by
  cases rc with
  | false => rfl
  | true =>
    have h1 : fsNoCorrupt (download fs listOk remotes).1 = true :=
      download_noCorrupt fs listOk remotes h (List.all_eq_true.mp hv)
    have h2 : (merge (download fs listOk remotes).1
        (download fs listOk remotes).2).2 = none :=
      merge_no_raise _ _ h1
    rw [sync_true_eq fs remotes env osu listOk putOk h2]

/-- Witness for C5 at a concrete input: local store present, one healthy
remote object, listing fails and upload fails — sync still raises
nothing. -/
theorem C5_sync_no_raise_witness :
    (fsNoCorrupt [(storeName, DBFile.db [("runs", [Record.mk "0" "b0"])])] = true) ∧
    ([RemoteObject.mk "a.db" (DBFile.db [("runs", [Record.mk "1" "b1"])]) true].all
        (fun r => validDb (some r.content)) = true) ∧
    (sync true [(storeName, DBFile.db [("runs", [Record.mk "0" "b0"])])]
        [RemoteObject.mk "a.db" (DBFile.db [("runs", [Record.mk "1" "b1"])]) true]
        none "user" false false).raised = none :=
  ⟨by decide, by decide,
    C5_sync_no_raise _ _ none "user" true false false (by decide) (by decide)⟩

/-! ### C8: best-effort git enrichment in _to_json -/

theorem toJson_importError (data : List (String × SessValue)) :
    toJson GitOutcome.importError data =
      some (data.map (fun kv => (kv.1, coerceValue kv.2))) := by
  induction data with
  | nil => rfl
  | cons kv rest ih =>
    obtain ⟨k, v⟩ := kv
    show toJson GitOutcome.importError ((k, v) :: rest) = _
    unfold toJson
    by_cases hk : k = "git"
    · rw [if_pos hk]
      show (match toJson GitOutcome.importError rest with
            | none => none
            | some out => some ((k, coerceValue v) :: out)) = _
      rw [ih]
      rfl
    · rw [if_neg hk]
      show (match toJson GitOutcome.importError rest with
            | none => none
            | some out => some ((k, coerceValue v) :: out)) = _
      rw [ih]
      rfl

theorem toJson_repoError (data : List (String × SessValue))
    (hg : data.any (fun kv => kv.1 == "git") = true) :
    toJson GitOutcome.repoError data = none := by
  induction data with
  | nil => simp at hg
  | cons kv rest ih =>
    obtain ⟨k, v⟩ := kv
    show toJson GitOutcome.repoError ((k, v) :: rest) = none
    unfold toJson
    by_cases hk : k = "git"
    · rw [if_pos hk]
      rfl
    · rw [if_neg hk]
      have hg2 : k = "git" ∨ rest.any (fun kv => kv.1 == "git") = true := by
        rw [List.any_cons] at hg
        simpa using hg
      rcases hg2 with h1 | h1
      · exact absurd h1 hk
      · rw [ih h1]

/-- C8 counterexample: the session data holds a "git" mapping and the git
library imports fine, but obtaining the current branch fails (for
instance the project directory is not a git repository, raising
`git.InvalidGitRepositoryError`, which is not an `ImportError`). The
claim says the git value is then left unmodified and serialization never
raises; instead the exception escapes `_to_json`. -/
theorem C8_counterexample :
    toJson GitOutcome.repoError
        [("git", SessValue.dict [("commit_sha", "123456")])] = none := by
  decide

/-- C8 (amended): the git enrichment is best-effort only against a
missing git library: on `ImportError` the step is logged and every value
— including the "git" one — is serialized unmodified (up to the
stringification of non-serializable values), and `_to_json` returns
normally; but any other failure to obtain the branch propagates out of
`_to_json` (see the counterexample). -/
theorem C8_git_enrichment (data : List (String × SessValue))
    (hg : data.any (fun kv => kv.1 == "git") = true) :
    toJson GitOutcome.importError data =
      some (data.map (fun kv => (kv.1, coerceValue kv.2))) ∧
    toJson GitOutcome.repoError data = none :=
  ⟨toJson_importError data, toJson_repoError data hg⟩

/-- Witness for C8 at a concrete input: session data with a "git" mapping
and a non-serializable path value. -/
theorem C8_git_enrichment_witness :
    ([("git", SessValue.dict [("commit_sha", "abc")]),
      ("project_path", SessValue.nonser "PosixPath(p)")].any
        (fun kv => kv.1 == "git") = true) ∧
    (toJson GitOutcome.importError
        [("git", SessValue.dict [("commit_sha", "abc")]),
         ("project_path", SessValue.nonser "PosixPath(p)")] =
      some ([("git", SessValue.dict [("commit_sha", "abc")]),
             ("project_path", SessValue.nonser "PosixPath(p)")].map
        (fun kv => (kv.1, coerceValue kv.2))) ∧
    toJson GitOutcome.repoError
        [("git", SessValue.dict [("commit_sha", "abc")]),
         ("project_path", SessValue.nonser "PosixPath(p)")] = none) :=
  ⟨by decide, C8_git_enrichment _ (by decide)⟩

/-! ### C9: what save actually runs -/

/-- C9 counterexample: a remote location is configured and the remote
already holds a peer object "peer.db" with a record of id "2". The claim
says save() invokes the full three-phase cycle, so the peer update (id
"2") would be incorporated into the local store. Instead save() only
inserts and uploads — after save the local store holds exactly the new
session record and id "2" is absent. -/
theorem C9_counterexample :
    runIds (storeRuns ((save true []
        [("peer.db", DBFile.db [("runs", [Record.mk "2" "b2"])])]
        "s1" "blob1" none "u" true).getD ([], [])).1) = ["s1"] ∧
    ¬ ("2" ∈ runIds (storeRuns ((save true []
        [("peer.db", DBFile.db [("runs", [Record.mk "2" "b2"])])]
        "s1" "blob1" none "u" true).getD ([], [])).1)) := by
  decide

/-- C9 (amended): save() inserts the session's run record into the local
store and then, when a remote location is configured, runs the upload
phase only — no download and no merge, so no peer update is incorporated
by save(): the local identifier set afterwards is exactly the old one
plus the session id, and the post-insert store file is published under
the identity's remote name. With no remote location configured, save()
performs the local insert only and the remote is untouched. -/
theorem C9_save_insert_then_upload (fs : FS) (remote : FS)
    (sid blob : String) (env : Option String) (osu : String)
    (ts : List (String × List Record))
    (hst : fsGet fs storeName = some (DBFile.db ts))
    (hid : ¬ sid ∈ runIds (runsOf ts)) :
    (save true fs remote sid blob env osu true).isSome = true ∧
    runIds (storeRuns
        ((save true fs remote sid blob env osu true).getD (fs, remote)).1) =
      runIds (runsOf ts) ++ [sid] ∧
    fsGet ((save true fs remote sid blob env osu true).getD (fs, remote)).2
        (getDbname env osu) =
      fsGet ((save true fs remote sid blob env osu true).getD (fs, remote)).1
        storeName ∧
    save false fs remote sid blob env osu true =
      some (((save true fs remote sid blob env osu true).getD (fs, remote)).1,
        remote) := by
  have hopen := openStore_db fs ts hst
  have hins : insertRun (runsOf ts) (Record.mk sid blob) =
      some (runsOf ts ++ [Record.mk sid blob]) := by
    unfold insertRun
    rw [if_neg hid]
  have hsave : save true fs remote sid blob env osu true =
      some (fsPut fs storeName
          (DBFile.db [("runs", runsOf ts ++ [Record.mk sid blob])]),
        upload (fsPut fs storeName
            (DBFile.db [("runs", runsOf ts ++ [Record.mk sid blob])]))
          remote env osu true) := by
    unfold save
    simp [hopen, hins]
  have hsave2 : save false fs remote sid blob env osu true =
      some (fsPut fs storeName
          (DBFile.db [("runs", runsOf ts ++ [Record.mk sid blob])]), remote) := by
    unfold save
    simp [hopen, hins]
  have hstore : fsGet (fsPut fs storeName
      (DBFile.db [("runs", runsOf ts ++ [Record.mk sid blob])])) storeName =
      some (DBFile.db [("runs", runsOf ts ++ [Record.mk sid blob])]) :=
    fsGet_fsPut_self _ _ _
  refine ⟨by rw [hsave]; rfl, ?_, ?_, ?_⟩
  · rw [hsave]
    show runIds (storeRuns (fsPut fs storeName
      (DBFile.db [("runs", runsOf ts ++ [Record.mk sid blob])]))) = _
    unfold storeRuns
    rw [hstore]
    show runIds (runsOf [("runs", runsOf ts ++ [Record.mk sid blob])]) = _
    have : runsOf [("runs", runsOf ts ++ [Record.mk sid blob])] =
        runsOf ts ++ [Record.mk sid blob] := by
      simp [runsOf]
    rw [this, runIds_append]
    rfl
  · rw [hsave]
    show fsGet (upload (fsPut fs storeName
        (DBFile.db [("runs", runsOf ts ++ [Record.mk sid blob])]))
        remote env osu true) (getDbname env osu) = _
    unfold upload
    rw [hstore]
    show fsGet (fsPut remote (getDbname env osu)
        (DBFile.db [("runs", runsOf ts ++ [Record.mk sid blob])]))
        (getDbname env osu) = _
    rw [fsGet_fsPut_self]
    exact hstore.symm
  · rw [hsave2, hsave]
    rfl

/-- Witness for C9 at a concrete input: local store {id "0"}, fresh
session id "s1". -/
theorem C9_save_insert_then_upload_witness :
    (fsGet [(storeName, DBFile.db [("runs", [Record.mk "0" "b0"])])] storeName =
        some (DBFile.db [("runs", [Record.mk "0" "b0"])])) ∧
    (¬ "s1" ∈ runIds (runsOf [("runs", [Record.mk "0" "b0"])])) ∧
    ((save true [(storeName, DBFile.db [("runs", [Record.mk "0" "b0"])])] []
        "s1" "bb" none "u" true).isSome = true ∧
      runIds (storeRuns ((save true
          [(storeName, DBFile.db [("runs", [Record.mk "0" "b0"])])] []
          "s1" "bb" none "u" true).getD
          ([(storeName, DBFile.db [("runs", [Record.mk "0" "b0"])])], [])).1) =
        runIds (runsOf [("runs", [Record.mk "0" "b0"])]) ++ ["s1"] ∧
      fsGet ((save true
          [(storeName, DBFile.db [("runs", [Record.mk "0" "b0"])])] []
          "s1" "bb" none "u" true).getD
          ([(storeName, DBFile.db [("runs", [Record.mk "0" "b0"])])], [])).2
          (getDbname none "u") =
        fsGet ((save true
            [(storeName, DBFile.db [("runs", [Record.mk "0" "b0"])])] []
            "s1" "bb" none "u" true).getD
            ([(storeName, DBFile.db [("runs", [Record.mk "0" "b0"])])], [])).1
          storeName ∧
      save false [(storeName, DBFile.db [("runs", [Record.mk "0" "b0"])])] []
          "s1" "bb" none "u" true =
        some (((save true
            [(storeName, DBFile.db [("runs", [Record.mk "0" "b0"])])] []
            "s1" "bb" none "u" true).getD
            ([(storeName, DBFile.db [("runs", [Record.mk "0" "b0"])])], [])).1,
          [])) :=
  ⟨by decide, by decide,
    C9_save_insert_then_upload _ _ _ _ none "u" _ (by decide) (by decide)⟩

/-! ### C10: the process's own remote object is not excluded -/

/-- C10: the download phase applies no exclusion: under a successful
listing with successful fetches of well-formed, distinctly named *.db
objects (none aliasing the local store file), every listed object —
including the one carrying this process's own identity name
`_get_dbname()` — is fetched under its base name, and every record of the
own object is afterwards present in the local store, i.e. it is merged
back. -/
theorem C10_download_includes_own (fs : FS) (remotes : List RemoteObject)
    (env : Option String) (osu : String) (putOk : Bool)
    (ts0 tso : List (String × List Record))
    (hst : fsGet fs storeName = some (DBFile.db ts0))
    (hglob : remotes.all (fun r => matchesDbGlob r.name) = true)
    (hfetch : remotes.all (fun r => r.fetchOk) = true)
    (hvalid : remotes.all (fun r => validDb (some r.content)) = true)
    (hnd : (remotes.map (fun r => r.name)).Nodup)
    (hns : remotes.all (fun r => decide (r.name ≠ storeName)) = true)
    (hown : RemoteObject.mk (getDbname env osu) (DBFile.db tso) true ∈ remotes) :
    (download fs true remotes).2 = remotes.map (fun r => r.name) ∧
    getDbname env osu ∈ (download fs true remotes).2 ∧
    (runIds (runsOf tso)).all (fun i =>
        decide (i ∈ runIds (storeRuns
          (sync true fs remotes env osu true putOk).fs))) = true := by
  have hglob2 := List.all_eq_true.mp hglob
  have hfetch2 := List.all_eq_true.mp hfetch
  have hvalid2 := List.all_eq_true.mp hvalid
  have hns2 : ∀ r ∈ remotes, r.name ≠ storeName :=
    fun r hr => of_decide_eq_true (List.all_eq_true.mp hns r hr)
  have hdl : (download fs true remotes).2 = remotes.map (fun r => r.name) := by
    rw [download_true_eq fs remotes hglob2]
    exact downloadLoop_names_all_ok remotes fs hfetch2
  refine ⟨hdl, ?_, ?_⟩
  · rw [hdl]
    exact List.mem_map_of_mem _ hown
  · obtain ⟨_, h2⟩ := sync_storeRuns fs remotes env osu putOk ts0 hst hglob2
      hfetch2 hvalid2 hnd hns2
    rw [List.all_eq_true]
    intro i hi
    apply decide_eq_true
    rw [h2, mem_runIds_mergeRuns]
    right
    rw [mem_runIds_remotesRuns]
    exact ⟨RemoteObject.mk (getDbname env osu) (DBFile.db tso) true, hown, hi⟩

/-- Witness for C10 at a concrete input: the only remote object is this
process's own upload "u.db" (identity "u"); it is listed, fetched, and
its record id "5" ends up back in the local store. -/
theorem C10_download_includes_own_witness :
    (fsGet [(storeName, DBFile.db [("runs", [Record.mk "0" "b0"])])] storeName =
        some (DBFile.db [("runs", [Record.mk "0" "b0"])])) ∧
    (RemoteObject.mk (getDbname none "u")
        (DBFile.db [("runs", [Record.mk "5" "b5"])]) true ∈
      [RemoteObject.mk "u.db" (DBFile.db [("runs", [Record.mk "5" "b5"])]) true]) ∧
    ((download [(storeName, DBFile.db [("runs", [Record.mk "0" "b0"])])] true
        [RemoteObject.mk "u.db" (DBFile.db [("runs", [Record.mk "5" "b5"])]) true]).2 =
      [RemoteObject.mk "u.db" (DBFile.db [("runs", [Record.mk "5" "b5"])]) true].map
        (fun r => r.name) ∧
    getDbname none "u" ∈
      (download [(storeName, DBFile.db [("runs", [Record.mk "0" "b0"])])] true
        [RemoteObject.mk "u.db" (DBFile.db [("runs", [Record.mk "5" "b5"])]) true]).2 ∧
    (runIds (runsOf [("runs", [Record.mk "5" "b5"])])).all (fun i =>
        decide (i ∈ runIds (storeRuns
          (sync true [(storeName, DBFile.db [("runs", [Record.mk "0" "b0"])])]
            [RemoteObject.mk "u.db" (DBFile.db [("runs", [Record.mk "5" "b5"])]) true]
            none "u" true true).fs))) = true) :=
  ⟨by decide, by decide,
    C10_download_includes_own _ _ none "u" true
      [("runs", [Record.mk "0" "b0"])] [("runs", [Record.mk "5" "b5"])]
      (by decide) (by decide) (by decide) (by decide) (by decide) (by decide)
      (by decide)⟩
